import Mathlib

/-!
Verification of `algorithms/benchmark_classic.py` (classic Genetic
Programming for Symbolic Regression).

The expression trees evolved by the program use the primitive set built at
module scope: the binary primitives `np.add`, `np.subtract`, `np.multiply`
and protected `division`, variable terminals (one per input feature) and
ephemeral rational constants.  Numeric values are modelled as rationals.

The DEAP library functions the script registers (`gp.genHalfAndHalf`,
`gp.genFull`, `tools.selTournament`, `gp.cxOnePoint`, `gp.mutUniform`,
`gp.staticLimit`, `tools.HallOfFame`) and the helper modules
`algorithms/config.py`, `utility/operators.py`, `utility/evaluate.py` are
not part of the source under verification; where a definition stands in
for one of them it is modelled from the spec and marked as such in its
doc comment.  Randomness is modelled by an oracle: a stream of rational
draws (for `random()`-style uniform draws) and a stream of naturals (for
index/choice draws), consumed through a single advancing position, which
mirrors the single seeded random source the spec requires.
-/

namespace GPBench

/-- Expression trees over the primitive set registered in
`benchmark_classic.py`: four binary primitives (`np.add`, `np.subtract`,
`np.multiply`, protected `division`), variable terminals (`var i` reads
feature `i`) and ephemeral rational constants. -/
inductive Expr : Type
  | var : ℕ → Expr
  | const : ℚ → Expr
  | add : Expr → Expr → Expr
  | sub : Expr → Expr → Expr
  | mul : Expr → Expr → Expr
  | div : Expr → Expr → Expr
deriving DecidableEq, Repr

namespace Expr

/-- Height of an expression tree: maximal root-to-leaf edge count
(the `height` attribute of a DEAP `PrimitiveTree`, used as the key of the
static height limit). -/
def height : Expr → ℕ
  | var _ => 0
  | const _ => 0
  | add a b => max a.height b.height + 1
  | sub a b => max a.height b.height + 1
  | mul a b => max a.height b.height + 1
  | div a b => max a.height b.height + 1

/-- Node count of an expression tree (`len(individual)` in the source,
used for the size statistics and for uniform node choice). -/
def size : Expr → ℕ
  | var _ => 1
  | const _ => 1
  | add a b => a.size + b.size + 1
  | sub a b => a.size + b.size + 1
  | mul a b => a.size + b.size + 1
  | div a b => a.size + b.size + 1

/-- Subtree rooted at preorder index `i` (index 0 is the root; then the
left child's nodes, then the right child's), matching the flat preorder
storage of a DEAP `PrimitiveTree`.  Out-of-range indices return the node
itself; they are never reached, since indices are always drawn below
`size`. -/
def subtreeAt : Expr → ℕ → Expr
  | t, 0 => t
  | add a b, n + 1 => if n < a.size then a.subtreeAt n else b.subtreeAt (n - a.size)
  | sub a b, n + 1 => if n < a.size then a.subtreeAt n else b.subtreeAt (n - a.size)
  | mul a b, n + 1 => if n < a.size then a.subtreeAt n else b.subtreeAt (n - a.size)
  | div a b, n + 1 => if n < a.size then a.subtreeAt n else b.subtreeAt (n - a.size)
  | t, _ => t

/-- Replace the subtree rooted at preorder index `i` by `s` (the slice
assignment on a DEAP `PrimitiveTree` performed by crossover and
mutation). -/
def replaceAt : Expr → ℕ → Expr → Expr
  | _, 0, s => s
  | add a b, n + 1, s =>
      if n < a.size then add (a.replaceAt n s) b else add a (b.replaceAt (n - a.size) s)
  | sub a b, n + 1, s =>
      if n < a.size then sub (a.replaceAt n s) b else sub a (b.replaceAt (n - a.size) s)
  | mul a b, n + 1, s =>
      if n < a.size then mul (a.replaceAt n s) b else mul a (b.replaceAt (n - a.size) s)
  | div a b, n + 1, s =>
      if n < a.size then div (a.replaceAt n s) b else div a (b.replaceAt (n - a.size) s)
  | t, _, _ => t

end Expr

/-- Modelled from the spec: the protected `division` primitive
(`utility/operators.py` is not under src); division-by-zero returns a
defined fallback value instead of failing. -/
def pdiv (a b : ℚ) : ℚ := if b = 0 then 1 else a / b

/-- Evaluation of a compiled expression tree on a feature vector: this is
the callable produced by `toolbox.compile(expr=individual)`, taking one
argument per variable terminal. -/
def Expr.eval : Expr → List ℚ → ℚ
  | Expr.var i, xs => xs.getD i 0
  | Expr.const c, _ => c
  | Expr.add a b, xs => a.eval xs + b.eval xs
  | Expr.sub a b, xs => a.eval xs - b.eval xs
  | Expr.mul a b, xs => a.eval xs * b.eval xs
  | Expr.div a b, xs => pdiv (a.eval xs) (b.eval xs)

/-- A dataset row: the feature vector (columns `0 .. shape[1]-2` of the
data frame) paired with the target scalar (the last column). -/
abbrev Row : Type := List ℚ × ℚ

/-- Translated from `fitness_function_ae` (benchmark_classic.py lines
94-120): compile the tree, loop over the rows accumulating
`abs(real - pred)` into `total_error` (initially `0`), and return the
total as a single-element list.  The loop body raises no exception, so
the result is always `ok`. -/
def fitness_function_ae (individual : Expr) (data : List Row) :
    Except String (List ℚ) :=
  let func := fun xs => individual.eval xs
  let total_error := data.foldl (fun acc row => acc + |row.2 - func row.1|) 0
  Except.ok [total_error]

/-- Translated from `fitness_function_sse` (benchmark_classic.py lines
123-149): identical loop with `(real - pred)**2` accumulated. -/
def fitness_function_sse (individual : Expr) (data : List Row) :
    Except String (List ℚ) :=
  let func := fun xs => individual.eval xs
  let total_error := data.foldl (fun acc row => acc + (row.2 - func row.1) ^ 2) 0
  Except.ok [total_error]

/-- Translated from `fitness_function_mse` (benchmark_classic.py lines
152-178): the squared-error loop followed by `total_error/data.shape[0]`.
On a zero-row dataset the loop leaves `total_error` as the integer `0`
and the final division `0/0` raises `ZeroDivisionError` in Python, which
is modelled by the error branch. -/
def fitness_function_mse (individual : Expr) (data : List Row) :
    Except String (List ℚ) :=
  let func := fun xs => individual.eval xs
  let total_error := data.foldl (fun acc row => acc + (row.2 - func row.1) ^ 2) 0
  if data.length = 0 then Except.error "ZeroDivisionError"
  else Except.ok [total_error / (data.length : ℚ)]

/-- The random oracle: a stream of rational draws (uniform `random()`
draws), a stream of natural draws (index/choice draws), and the current
position.  Both kinds of draw advance the same position, modelling the
single seeded random source the spec requires for reproducibility. -/
structure Rng where
  reals : ℕ → ℚ
  nats : ℕ → ℕ
  pos : ℕ

/-- Draw one uniform rational from the oracle. -/
def Rng.drawReal (r : Rng) : ℚ × Rng :=
  (r.reals r.pos, ⟨r.reals, r.nats, r.pos + 1⟩)

/-- Draw one natural below `bound` from the oracle (uniform index
choice). -/
def Rng.drawNat (r : Rng) (bound : ℕ) : ℕ × Rng :=
  (r.nats r.pos % bound, ⟨r.reals, r.nats, r.pos + 1⟩)

/-- An individual: an expression tree paired with its (possibly unset)
fitness.  `fitness = none` models a DEAP individual whose
`fitness.values` has been deleted; `some v` models `fitness.values = v`
(a single-element list for these single-objective fitness functions). -/
structure Individual where
  tree : Expr
  fitness : Option (List ℚ)
deriving DecidableEq, Repr

/-- Default individual used to totalise list indexing; never reached
when the population is nonempty and indices are drawn below its
length. -/
def dfltInd : Individual := ⟨Expr.const 0, none⟩

/-- First objective value of a (set) fitness; the minimised quantity
(the source declares `weights=(-1.0,)`, so lower is better). -/
def fitVal (ind : Individual) : ℚ := (ind.fitness.getD []).headD 0

/-- Modelled from the spec: terminal emission during tree generation —
uniformly choose a variable terminal or invoke the ephemeral-constant
generator (a fresh draw per constant node). -/
def genTerminal (numVars : ℕ) (r : Rng) : Expr × Rng :=
  let c := r.drawNat 2
  if c.1 = 0 then
    let v := c.2.drawNat numVars
    (Expr.var v.1, v.2)
  else
    let x := c.2.drawReal
    (Expr.const x.1, x.2)

/-- Uniform choice among the four registered binary primitives. -/
def mkPrim (k : ℕ) (a b : Expr) : Expr :=
  match k with
  | 0 => Expr.add a b
  | 1 => Expr.sub a b
  | 2 => Expr.mul a b
  | _ => Expr.div a b

/-- Modelled from the spec: the "full" generation method with `d` levels
remaining — every branch extends to exactly the target depth before
terminating. -/
def genFullRec (numVars : ℕ) : ℕ → Rng → Expr × Rng
  | 0, r => genTerminal numVars r
  | d + 1, r =>
    let k := r.drawNat 4
    let a := genFullRec numVars d k.2
    let b := genFullRec numVars d a.2
    (mkPrim k.1 a.1 b.1, b.2)

/-- Modelled from the spec: the "grow" generation method with `d` levels
remaining — below the root (`atRoot = false`), a node may terminate
early when a uniform draw falls below the terminal ratio `termProb`. -/
def genGrowRec (numVars : ℕ) (termProb : ℚ) : ℕ → Bool → Rng → Expr × Rng
  | 0, _, r => genTerminal numVars r
  | d + 1, atRoot, r =>
    if atRoot then
      let k := r.drawNat 4
      let a := genGrowRec numVars termProb d false k.2
      let b := genGrowRec numVars termProb d false a.2
      (mkPrim k.1 a.1 b.1, b.2)
    else
      let x := r.drawReal
      if x.1 < termProb then genTerminal numVars x.2
      else
        let k := x.2.drawNat 4
        let a := genGrowRec numVars termProb d false k.2
        let b := genGrowRec numVars termProb d false a.2
        (mkPrim k.1 a.1 b.1, b.2)

/-- Modelled from the spec: ramped half-and-half generation
(`gp.genHalfAndHalf` registered as `toolbox.expr` with `min_=1`,
`max_=2`): choose a target depth uniformly in `[lo, hi]`, choose
uniformly between "full" and "grow", and build a tree of that target
depth. -/
def genHalfAndHalf (numVars : ℕ) (termProb : ℚ) (lo hi : ℕ) (r : Rng) :
    Expr × Rng :=
  let d := r.drawNat (hi - lo + 1)
  let target := lo + d.1
  let m := d.2.drawNat 2
  if m.1 = 0 then genFullRec numVars target m.2
  else genGrowRec numVars termProb target true m.2

/-- Translated from the registration
`toolbox.register("expr_mut", gp.genFull, min_=0, max_=2)`
(benchmark_classic.py line 216): the mutation subtree generator draws a
target depth uniformly in `[0, 2]` and builds by the "full" method. -/
def expr_mut (numVars : ℕ) (r : Rng) : Expr × Rng :=
  let d := r.drawNat 3
  genFullRec numVars d.1 d.2

/-- The mutation subtree generator as the spec's words describe it
("via the 'grow' method, depth range e.g. 0-2"), defined only for
comparison with the registered `expr_mut`. -/
def expr_mut_grow (numVars : ℕ) (termProb : ℚ) (r : Rng) : Expr × Rng :=
  let d := r.drawNat 3
  genGrowRec numVars termProb d.1 true d.2

/-- Modelled from the spec: one-point subtree crossover
(`gp.cxOnePoint` registered as `toolbox.mate`): pick one node index
uniformly at random in each parent and swap the subtrees rooted there.
Fitness fields are untouched by the operator itself. -/
def cxOnePoint (ind1 ind2 : Individual) (r : Rng) :
    (Individual × Individual) × Rng :=
  let i := r.drawNat ind1.tree.size
  let j := i.2.drawNat ind2.tree.size
  let s1 := ind1.tree.subtreeAt i.1
  let s2 := ind2.tree.subtreeAt j.1
  (({ ind1 with tree := ind1.tree.replaceAt i.1 s2 },
    { ind2 with tree := ind2.tree.replaceAt j.1 s1 }), j.2)

/-- Modelled from the spec: uniform subtree-replacement mutation
(`gp.mutUniform` registered as `toolbox.mutate`): pick one node index
uniformly at random and substitute a subtree freshly generated by
`gen` in place. -/
def mutUniform (gen : Rng → Expr × Rng) (ind : Individual) (r : Rng) :
    Individual × Rng :=
  let i := r.drawNat ind.tree.size
  let s := gen i.2
  ({ ind with tree := ind.tree.replaceAt i.1 s.1 }, s.2)

/-- Modelled from the spec: the BloatGuard height-limiting wrapper
(`gp.staticLimit` decorating `toolbox.mate`): keep copies of the inputs,
apply the operator, and if any output's tree height exceeds `maxH`
discard the operation's effect and return the kept inputs unchanged. -/
def staticLimitPair (maxH : ℕ)
    (op : Individual → Individual → Rng → (Individual × Individual) × Rng)
    (ind1 ind2 : Individual) (r : Rng) : (Individual × Individual) × Rng :=
  let res := op ind1 ind2 r
  if res.1.1.tree.height ≤ maxH ∧ res.1.2.tree.height ≤ maxH then res
  else ((ind1, ind2), res.2)

/-- Modelled from the spec: the BloatGuard height-limiting wrapper for a
one-individual operator (`gp.staticLimit` decorating
`toolbox.mutate`). -/
def staticLimitOne (maxH : ℕ) (op : Individual → Rng → Individual × Rng)
    (ind : Individual) (r : Rng) : Individual × Rng :=
  let res := op ind r
  if res.1.tree.height ≤ maxH then res else (ind, res.2)

/-- Modelled from the spec: one tournament round sequence — `j` further
uniform samples with replacement, the incumbent beaten only by a
strictly better (lower) fitness, so ties resolve to the first
sampled. -/
def tournamentRounds (pop : List Individual) (best : Individual) :
    ℕ → Rng → Individual × Rng
  | 0, r => (best, r)
  | j + 1, r =>
    let i := r.drawNat pop.length
    let cand := pop.getD i.1 dfltInd
    tournamentRounds pop (if fitVal cand < fitVal best then cand else best) j i.2

/-- Modelled from the spec: one tournament of size `k` — sample `k`
individuals uniformly with replacement and keep the best. -/
def tournamentPick (pop : List Individual) (k : ℕ) (r : Rng) :
    Individual × Rng :=
  let i := r.drawNat pop.length
  tournamentRounds pop (pop.getD i.1 dfltInd) (k - 1) i.2

/-- Modelled from the spec: tournament selection
(`tools.selTournament` registered as `toolbox.select` with
`tournsize=3`): `n` independent tournaments of size `k`. -/
def selTournament (pop : List Individual) : ℕ → ℕ → Rng →
    List Individual × Rng
  | 0, _, r => ([], r)
  | n + 1, k, r =>
    let ind := tournamentPick pop k r
    let rest := selTournament pop n k ind.2
    (ind.1 :: rest.1, rest.2)

/-- Modelled from the spec: the elite archive update
(`tools.HallOfFame(1)` updated by `halloffame.update(population)`):
retain the best-ever individual, a strictly better fitness displacing
the incumbent. -/
def hofStep (best : Option Individual) (ind : Individual) :
    Option Individual :=
  match best with
  | none => some ind
  | some b => if fitVal ind < fitVal b then some ind else some b

/-- Fold `hofStep` over the whole population. -/
def hofUpdate (hof : Option Individual) (pop : List Individual) :
    Option Individual :=
  pop.foldl hofStep hof

/-- The run configuration (`algorithms/config.py` is not under src; its
recognized options are those the spec lists).  `tournsize` is registered
as `3` and `evaluate` as `fitness_function_mse` over the training data in
the source; they are carried as parameters so the loop theorems hold for
any registered evaluator. -/
structure Config where
  size_population : ℕ
  num_generations : ℕ
  prob_crossover : ℚ
  prob_mutation : ℚ
  max_height : ℕ
  tournsize : ℕ
  numVars : ℕ
  termProb : ℚ
  evaluate : Expr → List ℚ

/-- Modelled from the spec: one `GenerationRecord` as appended by
`evaluate_population` (`utility/evaluate.py` is not under src) —
generation index, the fitness and size lists gathered before variation,
and the archive's best individual.  The wall-clock duration the source
also records is reporting-only and is not modelled. -/
structure Stats where
  generation : ℕ
  fits : List ℚ
  sizes : List ℕ
  best : Option Individual
deriving DecidableEq, Repr

/-- State carried across generations: the live population, the hall of
fame, the statistics list, and the random oracle position. -/
structure GPState where
  population : List Individual
  halloffame : Option Individual
  statistics : List Stats
  rng : Rng

/-- Initial population: `n` individuals freshly generated by
`toolbox.population(n=config.size_population)`, i.e. repeated
`genHalfAndHalf` with depths in `[1, 2]`, all fitness unset. -/
def initPopulation (cfg : Config) : ℕ → Rng → List Individual × Rng
  | 0, r => ([], r)
  | n + 1, r =>
    let t := genHalfAndHalf cfg.numVars cfg.termProb 1 2 r
    let rest := initPopulation cfg n t.2
    (⟨t.1, none⟩ :: rest.1, rest.2)

/-- One iteration of the crossover loop body (benchmark_classic.py lines
61-65) at odd index `i`: with probability `prob_crossover` apply the
height-limited `toolbox.mate` to `next_gen[i-1], next_gen[i]`, write the
results back, and delete both fitness values (the deletion is
unconditional within the branch). -/
def crossPair (cfg : Config) (g : List Individual) (i : ℕ) (r : Rng) :
    List Individual × Rng :=
  let x := r.drawReal
  if x.1 < cfg.prob_crossover then
    let a := g.getD (i - 1) dfltInd
    let b := g.getD i dfltInd
    let c := staticLimitPair cfg.max_height cxOnePoint a b x.2
    ((g.set (i - 1) { c.1.1 with fitness := none }).set i
      { c.1.2 with fitness := none }, c.2)
  else (g, x.2)

/-- The odd indices `1, 3, 5, ...` below `n`, i.e. Python's
`range(1, n, 2)` driving the crossover loop. -/
def oddIndices (n : ℕ) : List ℕ := (List.range (n / 2)).map (fun k => 2 * k + 1)

/-- The crossover stage: fold the loop body over `range(1, size, 2)`. -/
def crossoverStage (cfg : Config) (g : List Individual) (r : Rng) :
    List Individual × Rng :=
  (oddIndices cfg.size_population).foldl
    (fun p i => crossPair cfg p.1 i p.2) (g, r)

/-- The mutation loop (benchmark_classic.py lines 68-71): for every
offspring in order, with probability `prob_mutation` apply the
height-limited `toolbox.mutate` and delete its fitness (again,
unconditionally within the branch). -/
def mutationStage (cfg : Config) : List Individual → Rng →
    List Individual × Rng
  | [], r => ([], r)
  | ind :: rest, r =>
    let x := r.drawReal
    if x.1 < cfg.prob_mutation then
      let m :=
        staticLimitOne cfg.max_height (mutUniform (expr_mut cfg.numVars)) ind x.2
      let restOut := mutationStage cfg rest m.2
      ({ m.1 with fitness := none } :: restOut.1, restOut.2)
    else
      let restOut := mutationStage cfg rest x.2
      (ind :: restOut.1, restOut.2)

/-- One generation of `execute_algorithm` (benchmark_classic.py lines
40-80): evaluate every individual's fitness, update the hall of fame,
gather the fitness and size statistics, select and clone
`size_population` offspring, run the crossover and mutation loops,
replace the population wholesale, and append one generation record. -/
def generationStep (cfg : Config) (generation : ℕ) (st : GPState) : GPState :=
  let scored :=
    st.population.map (fun ind => { ind with fitness := some (cfg.evaluate ind.tree) })
  let hof := hofUpdate st.halloffame scored
  let fits := scored.map fitVal
  let sizes := scored.map (fun ind => ind.tree.size)
  let sel := selTournament scored cfg.size_population cfg.tournsize st.rng
  let crossed := crossoverStage cfg sel.1 sel.2
  let mutated := mutationStage cfg crossed.1 crossed.2
  { population := mutated.1
    halloffame := hof
    statistics := st.statistics ++ [⟨generation, fits, sizes, hof⟩]
    rng := mutated.2 }

/-- The state reached after `g` generations: generation `0` is the
freshly initialised state (population built, nothing evaluated yet). -/
def runState (cfg : Config) (r0 : Rng) : ℕ → GPState
  | 0 =>
    let init := initPopulation cfg cfg.size_population r0
    ⟨init.1, none, [], init.2⟩
  | g + 1 => generationStep cfg g (runState cfg r0 g)

/-- Translated from `execute_algorithm` (benchmark_classic.py lines
24-82): run the generational loop for exactly `num_generations`
iterations and return the statistics list, the final population, and the
hall of fame. -/
def execute_algorithm (cfg : Config) (r0 : Rng) :
    List Stats × List Individual × Option Individual :=
  let final := runState cfg r0 cfg.num_generations
  (final.statistics, final.population, final.halloffame)

/-! ## Helper lemmas -/

/-- Decidable equality of `Except` results, so fitness values can be
checked on concrete inputs. -/
instance {ε α : Type} [DecidableEq ε] [DecidableEq α] :
    DecidableEq (Except ε α) := fun a b =>
  match a, b with
  | Except.ok x, Except.ok y =>
      if h : x = y then Decidable.isTrue (by rw [h])
      else Decidable.isFalse (by simp [h])
  | Except.error x, Except.error y =>
      if h : x = y then Decidable.isTrue (by rw [h])
      else Decidable.isFalse (by simp [h])
  | Except.ok _, Except.error _ => Decidable.isFalse (by simp)
  | Except.error _, Except.ok _ => Decidable.isFalse (by simp)

/-- Accumulating `f row` over a fold equals the initial value plus the
sum of the mapped list. -/
theorem foldl_add_map (f : Row → ℚ) (l : List Row) (init : ℚ) :
    l.foldl (fun acc row => acc + f row) init = init + (l.map f).sum := by
  induction l generalizing init with
  | nil => simp
  | cons hd tl ih =>
    simp only [List.foldl_cons, List.map_cons, List.sum_cons, ih]
    ring

/-! ## Claims about the fitness functions -/

/-- C1: for every dataset with at least one row and every compilable
tree, the fitness evaluators accumulate per-row error from
`pred = compiled(*features)` and the real target, returning a
single-element list: AE returns the sum of `|real - pred|`, SSE the sum
of `(real - pred)^2`, and MSE that sum divided by the row count; in
particular for `f(x) = x + 1` on `[(1, 3)]` all three metrics give `1`,
and for `f(x) = x` on `[(1, 2), (2, 4)]` SSE is `5` and MSE is `5/2`. -/
theorem fitness_functions_spec (t : Expr) (data : List Row)
    (h : 1 ≤ data.length) :
    (fitness_function_ae t data
        = Except.ok [(data.map (fun row => |row.2 - t.eval row.1|)).sum]
      ∧ fitness_function_sse t data
        = Except.ok [(data.map (fun row => (row.2 - t.eval row.1) ^ 2)).sum]
      ∧ fitness_function_mse t data
        = Except.ok [(data.map (fun row => (row.2 - t.eval row.1) ^ 2)).sum
            / (data.length : ℚ)])
    ∧ (fitness_function_ae (Expr.add (Expr.var 0) (Expr.const 1))
          [([1], 3)] = Except.ok [1]
      ∧ fitness_function_sse (Expr.add (Expr.var 0) (Expr.const 1))
          [([1], 3)] = Except.ok [1]
      ∧ fitness_function_mse (Expr.add (Expr.var 0) (Expr.const 1))
          [([1], 3)] = Except.ok [1]
      ∧ fitness_function_sse (Expr.var 0)
          [([1], 2), ([2], 4)] = Except.ok [5]
      ∧ fitness_function_mse (Expr.var 0)
          [([1], 2), ([2], 4)] = Except.ok [5 / 2]) := by
  have hne : data.length ≠ 0 := by omega
  refine ⟨⟨?_, ?_, ?_⟩, ?_, ?_, ?_, ?_, ?_⟩
  · simp [fitness_function_ae, foldl_add_map]
  · simp [fitness_function_sse, foldl_add_map]
  · simp [fitness_function_mse, hne, foldl_add_map]
  · norm_num [fitness_function_ae, Expr.eval, List.foldl]
  · norm_num [fitness_function_sse, Expr.eval, List.foldl]
  · norm_num [fitness_function_mse, Expr.eval, List.foldl]
  · norm_num [fitness_function_sse, Expr.eval, List.foldl]
  · norm_num [fitness_function_mse, Expr.eval, List.foldl]

/-- Witness for C1 at the concrete tree `f(x) = x + 1` and the one-row
dataset `[(1, 3)]`. -/
theorem fitness_functions_spec_witness :
    1 ≤ ([(([1] : List ℚ), (3 : ℚ))] : List Row).length ∧
    ((fitness_function_ae (Expr.add (Expr.var 0) (Expr.const 1))
          [([1], 3)]
        = Except.ok [(([(([1] : List ℚ), (3 : ℚ))] : List Row).map
            (fun row => |row.2 - (Expr.add (Expr.var 0) (Expr.const 1)).eval row.1|)).sum]
      ∧ fitness_function_sse (Expr.add (Expr.var 0) (Expr.const 1))
          [([1], 3)]
        = Except.ok [(([(([1] : List ℚ), (3 : ℚ))] : List Row).map
            (fun row => (row.2 - (Expr.add (Expr.var 0) (Expr.const 1)).eval row.1) ^ 2)).sum]
      ∧ fitness_function_mse (Expr.add (Expr.var 0) (Expr.const 1))
          [([1], 3)]
        = Except.ok [(([(([1] : List ℚ), (3 : ℚ))] : List Row).map
            (fun row => (row.2 - (Expr.add (Expr.var 0) (Expr.const 1)).eval row.1) ^ 2)).sum
            / ((([(([1] : List ℚ), (3 : ℚ))] : List Row).length : ℚ))])
    ∧ (fitness_function_ae (Expr.add (Expr.var 0) (Expr.const 1))
          [([1], 3)] = Except.ok [1]
      ∧ fitness_function_sse (Expr.add (Expr.var 0) (Expr.const 1))
          [([1], 3)] = Except.ok [1]
      ∧ fitness_function_mse (Expr.add (Expr.var 0) (Expr.const 1))
          [([1], 3)] = Except.ok [1]
      ∧ fitness_function_sse (Expr.var 0)
          [([1], 2), ([2], 4)] = Except.ok [5]
      ∧ fitness_function_mse (Expr.var 0)
          [([1], 2), ([2], 4)] = Except.ok [5 / 2])) :=
  ⟨by decide,
   fitness_functions_spec (Expr.add (Expr.var 0) (Expr.const 1))
     [([1], 3)] (by decide)⟩

/-- C2 counterexample: on the zero-row dataset, `fitness_function_ae`
and `fitness_function_sse` do not fail — they silently return the
single-element list `[0]`, contradicting the claim that evaluation on an
empty dataset always fails with an explicit "no rows" error. -/
theorem empty_dataset_counterexample :
    fitness_function_ae (Expr.var 0) [] = Except.ok [0]
    ∧ fitness_function_sse (Expr.var 0) [] = Except.ok [0] :=
  ⟨rfl, rfl⟩

/-- C2 (amended): evaluating fitness on a zero-row dataset does not
produce an explicit "no rows" failure: `fitness_function_ae` and
`fitness_function_sse` silently return `[0]`, and only
`fitness_function_mse` fails, with a `ZeroDivisionError` from the final
division by the row count. -/
theorem empty_dataset_behavior (t : Expr) :
    fitness_function_ae t [] = Except.ok [0]
    ∧ fitness_function_sse t [] = Except.ok [0]
    ∧ fitness_function_mse t [] = Except.error "ZeroDivisionError" :=
  ⟨rfl, rfl, rfl⟩

/-! ## Height bounds of the tree generators -/

/-- Generated terminals are leaves. -/
theorem genTerminal_height (n : ℕ) (r : Rng) : (genTerminal n r).1.height = 0 := by
  simp only [genTerminal]
  split <;> rfl

/-- Every primitive choice yields a node one level above its children. -/
theorem mkPrim_height (k : ℕ) (a b : Expr) :
    (mkPrim k a b).height = max a.height b.height + 1 := by
  rcases k with _ | _ | _ | k <;> rfl

/-- Trees built by the "full" method with `d` levels remaining have
height at most `d`. -/
theorem genFullRec_height (n d : ℕ) (r : Rng) :
    (genFullRec n d r).1.height ≤ d := by
  induction d generalizing r with
  | zero => simp [genFullRec, genTerminal_height]
  | succ d ih =>
    simp only [genFullRec, mkPrim_height]
    exact Nat.succ_le_succ (max_le (ih _) (ih _))

/-- Trees built by the "grow" method with `d` levels remaining have
height at most `d`. -/
theorem genGrowRec_height (n : ℕ) (p : ℚ) (d : ℕ) (fl : Bool) (r : Rng) :
    (genGrowRec n p d fl r).1.height ≤ d := by
  induction d generalizing fl r with
  | zero => simp [genGrowRec, genTerminal_height]
  | succ d ih =>
    simp only [genGrowRec]
    split
    · simp only [mkPrim_height]
      exact Nat.succ_le_succ (max_le (ih _ _) (ih _ _))
    · split
      · simp [genTerminal_height]
      · simp only [mkPrim_height]
        exact Nat.succ_le_succ (max_le (ih _ _) (ih _ _))

/-- Ramped half-and-half trees never exceed the upper depth bound. -/
theorem genHalfAndHalf_height (n : ℕ) (p : ℚ) (lo hi : ℕ) (h : lo ≤ hi)
    (r : Rng) : (genHalfAndHalf n p lo hi r).1.height ≤ hi := by
  have hd : (r.drawNat (hi - lo + 1)).1 < hi - lo + 1 := by
    simp only [Rng.drawNat]
    exact Nat.mod_lt _ (by omega)
  simp only [genHalfAndHalf]
  split
  · exact le_trans (genFullRec_height _ _ _) (by omega)
  · exact le_trans (genGrowRec_height _ _ _ _ _) (by omega)

/-- Every tree in the initial population has height at most `2` (the
registered `genHalfAndHalf` bounds are `min_=1`, `max_=2`). -/
theorem initPopulation_height (cfg : Config) (n : ℕ) (r : Rng) :
    ∀ ind ∈ (initPopulation cfg n r).1, ind.tree.height ≤ 2 := by
  induction n generalizing r with
  | zero => simp [initPopulation]
  | succ n ih =>
    intro ind hmem
    simp only [initPopulation] at hmem
    rcases List.mem_cons.mp hmem with h | h
    · subst h
      exact genHalfAndHalf_height cfg.numVars cfg.termProb 1 2 (by omega) r
    · exact ih _ ind h

/-- The initial population has exactly the requested size. -/
theorem initPopulation_length (cfg : Config) (n : ℕ) (r : Rng) :
    (initPopulation cfg n r).1.length = n := by
  induction n generalizing r with
  | zero => rfl
  | succ n ih => simp [initPopulation, ih]

/-! ## Predicate and length preservation through the variation stages -/

/-- Totalised indexing stays within a property that also covers the
default. -/
theorem getD_pred (P : Individual → Prop) (l : List Individual)
    (hP : ∀ x ∈ l, P x) (hd : P dfltInd) (i : ℕ) : P (l.getD i dfltInd) := by
  by_cases h : i < l.length
  · rw [List.getD_eq_getElem l dfltInd h]
    exact hP _ (List.getElem_mem h)
  · rw [List.getD_eq_default l dfltInd (by omega)]
    exact hd

/-- Tournament rounds only ever return sampled candidates or the
incumbent. -/
theorem tournamentRounds_pred (P : Individual → Prop) (pop : List Individual)
    (hP : ∀ x ∈ pop, P x) (hd : P dfltInd) (best : Individual) (hb : P best)
    (j : ℕ) (r : Rng) : P (tournamentRounds pop best j r).1 := by
  induction j generalizing best r with
  | zero => exact hb
  | succ j ih =>
    simp only [tournamentRounds]
    split
    · exact ih _ (getD_pred P pop hP hd _) _
    · exact ih _ hb _

/-- A tournament winner satisfies any property holding on the population
and the default. -/
theorem tournamentPick_pred (P : Individual → Prop) (pop : List Individual)
    (hP : ∀ x ∈ pop, P x) (hd : P dfltInd) (k : ℕ) (r : Rng) :
    P (tournamentPick pop k r).1 :=
  tournamentRounds_pred P pop hP hd _ (getD_pred P pop hP hd _) _ _

/-- All selected individuals satisfy any property holding on the
population and the default. -/
theorem selTournament_pred (P : Individual → Prop) (pop : List Individual)
    (hP : ∀ x ∈ pop, P x) (hd : P dfltInd) (n k : ℕ) (r : Rng) :
    ∀ y ∈ (selTournament pop n k r).1, P y := by
  induction n generalizing r with
  | zero => simp [selTournament]
  | succ n ih =>
    intro y hy
    simp only [selTournament] at hy
    rcases List.mem_cons.mp hy with h | h
    · subst h; exact tournamentPick_pred P pop hP hd _ _
    · exact ih _ y h

/-- Selection returns exactly `n` individuals. -/
theorem selTournament_length (pop : List Individual) (n k : ℕ) (r : Rng) :
    (selTournament pop n k r).1.length = n := by
  induction n generalizing r with
  | zero => rfl
  | succ n ih => simp [selTournament, ih]

/-- The height-limit wrapper on the pair operator never lets an output
exceed the bound when both inputs respect it. -/
theorem staticLimitPair_height (maxH : ℕ)
    (op : Individual → Individual → Rng → (Individual × Individual) × Rng)
    (a b : Individual) (r : Rng)
    (ha : a.tree.height ≤ maxH) (hb : b.tree.height ≤ maxH) :
    (staticLimitPair maxH op a b r).1.1.tree.height ≤ maxH
    ∧ (staticLimitPair maxH op a b r).1.2.tree.height ≤ maxH := by
  simp only [staticLimitPair]
  split
  · next h => exact h
  · exact ⟨ha, hb⟩

/-- The height-limit wrapper on the one-individual operator never lets
an output exceed the bound when the input respects it. -/
theorem staticLimitOne_height (maxH : ℕ)
    (op : Individual → Rng → Individual × Rng) (ind : Individual) (r : Rng)
    (h : ind.tree.height ≤ maxH) :
    (staticLimitOne maxH op ind r).1.tree.height ≤ maxH := by
  simp only [staticLimitOne]
  split
  · next hh => exact hh
  · exact h

/-- One crossover-loop iteration preserves the population length. -/
theorem crossPair_length (cfg : Config) (g : List Individual) (i : ℕ)
    (r : Rng) : (crossPair cfg g i r).1.length = g.length := by
  simp only [crossPair]
  split
  · simp
  · rfl

/-- One crossover-loop iteration preserves the height bound. -/
theorem crossPair_height (cfg : Config) (g : List Individual) (i : ℕ)
    (r : Rng) (hP : ∀ x ∈ g, x.tree.height ≤ cfg.max_height) :
    ∀ y ∈ (crossPair cfg g i r).1, y.tree.height ≤ cfg.max_height := by
  have hd : dfltInd.tree.height ≤ cfg.max_height := Nat.zero_le _
  simp only [crossPair]
  split
  · intro y hy
    have h1 := staticLimitPair_height cfg.max_height cxOnePoint
      (g.getD (i - 1) dfltInd) (g.getD i dfltInd) r.drawReal.2
      (getD_pred _ g hP hd _) (getD_pred _ g hP hd _)
    rcases List.mem_or_eq_of_mem_set hy with hy' | hy'
    · rcases List.mem_or_eq_of_mem_set hy' with hy'' | hy''
      · exact hP _ hy''
      · subst hy''; exact h1.1
    · subst hy'; exact h1.2
  · exact hP

/-- The whole crossover stage preserves the population length. -/
theorem crossoverStage_length (cfg : Config) (g : List Individual)
    (r : Rng) : (crossoverStage cfg g r).1.length = g.length := by
  suffices h : ∀ (is : List ℕ) (g : List Individual) (r : Rng),
      (is.foldl (fun p i => crossPair cfg p.1 i p.2) (g, r)).1.length
        = g.length by
    exact h _ g r
  intro is
  induction is with
  | nil => intro g r; rfl
  | cons i is ih =>
    intro g r
    simp only [List.foldl_cons]
    rw [ih]
    exact crossPair_length cfg g i r

/-- The whole crossover stage preserves the height bound. -/
theorem crossoverStage_height (cfg : Config) (g : List Individual) (r : Rng)
    (hP : ∀ x ∈ g, x.tree.height ≤ cfg.max_height) :
    ∀ y ∈ (crossoverStage cfg g r).1, y.tree.height ≤ cfg.max_height := by
  suffices h : ∀ (is : List ℕ) (g : List Individual) (r : Rng),
      (∀ x ∈ g, x.tree.height ≤ cfg.max_height) →
      ∀ y ∈ (is.foldl (fun p i => crossPair cfg p.1 i p.2) (g, r)).1,
        y.tree.height ≤ cfg.max_height by
    exact h _ g r hP
  intro is
  induction is with
  | nil => intro g r hg; exact hg
  | cons i is ih =>
    intro g r hg
    simp only [List.foldl_cons]
    exact ih _ _ (crossPair_height cfg g i r hg)

/-- The mutation stage preserves the population length. -/
theorem mutationStage_length (cfg : Config) (g : List Individual) (r : Rng) :
    (mutationStage cfg g r).1.length = g.length := by
  induction g generalizing r with
  | nil => rfl
  | cons ind rest ih =>
    simp only [mutationStage]
    split <;> simp [ih]

/-- The mutation stage preserves the height bound. -/
theorem mutationStage_height (cfg : Config) (g : List Individual) (r : Rng)
    (hP : ∀ x ∈ g, x.tree.height ≤ cfg.max_height) :
    ∀ y ∈ (mutationStage cfg g r).1, y.tree.height ≤ cfg.max_height := by
  induction g generalizing r with
  | nil => simp [mutationStage]
  | cons ind rest ih =>
    intro y hy
    simp only [mutationStage] at hy
    have hind : ind.tree.height ≤ cfg.max_height := hP ind (by simp)
    have hrest : ∀ x ∈ rest, x.tree.height ≤ cfg.max_height :=
      fun x hx => hP x (by simp [hx])
    split at hy
    · rcases List.mem_cons.mp hy with h | h
      · subst h
        exact staticLimitOne_height cfg.max_height _ ind _ hind
      · exact ih _ hrest y h
    · rcases List.mem_cons.mp hy with h | h
      · subst h; exact hind
      · exact ih _ hrest y h

/-! ## Loop invariants -/

/-- C3: for every run with `max_height ≥ 2` (so the initial trees of
depths in `[1, 2]` already satisfy the bound), every individual present
in the population at every generation boundary has tree height at most
`max_height`: the initial generation satisfies it, and every crossover
and mutation output that would exceed it is reverted by the
height-limiting wrapper. -/
theorem height_invariant (cfg : Config) (r0 : Rng) (h2 : 2 ≤ cfg.max_height)
    (g : ℕ) :
    ∀ ind ∈ (runState cfg r0 g).population,
      ind.tree.height ≤ cfg.max_height := by
  induction g with
  | zero =>
    intro ind h
    exact le_trans (initPopulation_height cfg _ r0 ind h) h2
  | succ g ih =>
    simp only [runState, generationStep]
    apply mutationStage_height
    apply crossoverStage_height
    apply selTournament_pred
    · intro x hx
      rcases List.mem_map.mp hx with ⟨a, ha, rfl⟩
      exact ih a ha
    · exact Nat.zero_le _

/-- Concrete configuration used by the loop-invariant witnesses:
population 1, two generations, zero variation probabilities, height
bound 2, one input feature. -/
def cfgW : Config := ⟨1, 2, 0, 0, 2, 3, 1, 0, fun _ => [0]⟩

/-- Concrete all-zero random oracle used by the witnesses. -/
def rngW : Rng := ⟨fun _ => 0, fun _ => 0, 0⟩

/-- Witness for C3 after one generation of the concrete run. -/
theorem height_invariant_witness :
    2 ≤ cfgW.max_height ∧
    ∀ ind ∈ (runState cfgW rngW 1).population,
      ind.tree.height ≤ cfgW.max_height :=
  ⟨by decide, height_invariant cfgW rngW (by decide) 1⟩

/-- C4: for every run configuration with `size_population > 0`, the
population list has length `size_population` at every generation
boundary: selection returns exactly `size_population` individuals, the
crossover and mutation loops replace elements in place, and the
wholesale replacement assigns a list of the same length. -/
theorem population_size_invariant (cfg : Config) (r0 : Rng)
    (hpos : 0 < cfg.size_population) (g : ℕ) :
    (runState cfg r0 g).population.length = cfg.size_population := by
  induction g with
  | zero => exact initPopulation_length cfg _ r0
  | succ g _ =>
    simp only [runState, generationStep]
    rw [mutationStage_length, crossoverStage_length, selTournament_length]

/-- Witness for C4 after one generation of the concrete run. -/
theorem population_size_invariant_witness :
    0 < cfgW.size_population ∧
    (runState cfgW rngW 1).population.length = cfgW.size_population :=
  ⟨by decide, population_size_invariant cfgW rngW (by decide) 1⟩

/-- Folding the archive step over any population can only improve (never
worsen) the archived fitness. -/
theorem hofUpdate_mono (pop : List Individual) :
    ∀ b : Individual, ∃ b',
      hofUpdate (some b) pop = some b' ∧ fitVal b' ≤ fitVal b := by
  induction pop with
  | nil => intro b; exact ⟨b, rfl, le_refl _⟩
  | cons ind rest ih =>
    intro b
    by_cases h : fitVal ind < fitVal b
    · obtain ⟨b', h1, h2⟩ := ih ind
      refine ⟨b', ?_, le_trans h2 (le_of_lt h)⟩
      simp only [hofUpdate, List.foldl_cons] at h1 ⊢
      simpa [hofStep, h] using h1
    · obtain ⟨b', h1, h2⟩ := ih b
      refine ⟨b', ?_, h2⟩
      simp only [hofUpdate, List.foldl_cons] at h1 ⊢
      simpa [hofStep, h] using h1

/-- C5: across successive hall-of-fame updates the best archived fitness
is monotonically non-worsening (no larger, for minimization), and the
archive after a generation is exactly the update of the previous archive
with the scored population — the archived individual is untouched by the
wholesale replacement of the population. -/
theorem hof_monotone (cfg : Config) (r0 : Rng) (g : ℕ) (b : Individual)
    (hb : (runState cfg r0 g).halloffame = some b) :
    (∃ b', (runState cfg r0 (g + 1)).halloffame = some b'
      ∧ fitVal b' ≤ fitVal b)
    ∧ (runState cfg r0 (g + 1)).halloffame
        = hofUpdate (runState cfg r0 g).halloffame
            ((runState cfg r0 g).population.map
              (fun ind => { ind with fitness := some (cfg.evaluate ind.tree) })) := by
  constructor
  · simp only [runState, generationStep]
    rw [hb]
    exact hofUpdate_mono _ b
  · rfl

/-- The concrete best individual archived after one generation of the
witness run. -/
def hofW : Individual := ⟨Expr.add (Expr.var 0) (Expr.var 0), some [0]⟩

/-- Witness for C5 between generations 1 and 2 of the concrete run. -/
theorem hof_monotone_witness :
    (runState cfgW rngW 1).halloffame = some hofW ∧
    ((∃ b', (runState cfgW rngW 2).halloffame = some b'
        ∧ fitVal b' ≤ fitVal hofW)
      ∧ (runState cfgW rngW 2).halloffame
          = hofUpdate (runState cfgW rngW 1).halloffame
              ((runState cfgW rngW 1).population.map
                (fun ind => { ind with fitness := some (cfgW.evaluate ind.tree) }))) :=
  ⟨by decide, hof_monotone cfgW rngW 1 hofW (by decide)⟩

/-- Exactly one generation record is appended per loop iteration. -/
theorem runState_statistics_length (cfg : Config) (r0 : Rng) (g : ℕ) :
    (runState cfg r0 g).statistics.length = g := by
  induction g with
  | zero => rfl
  | succ g ih =>
    simp only [runState, generationStep]
    simp [ih]

/-- C8: for every configuration with `num_generations > 0`,
`execute_algorithm` performs exactly `num_generations` iterations with no
early-stopping condition, appends exactly one generation record per
iteration (the statistics list has length `num_generations`), and
returns the statistics list, the final population, and the hall-of-fame
archive. -/
theorem generational_loop_spec (cfg : Config) (r0 : Rng)
    (hgen : 0 < cfg.num_generations) :
    (execute_algorithm cfg r0).1.length = cfg.num_generations
    ∧ execute_algorithm cfg r0
        = ((runState cfg r0 cfg.num_generations).statistics,
           (runState cfg r0 cfg.num_generations).population,
           (runState cfg r0 cfg.num_generations).halloffame) :=
  ⟨runState_statistics_length cfg r0 _, rfl⟩

/-- Witness for C8 on the concrete two-generation run. -/
theorem generational_loop_spec_witness :
    0 < cfgW.num_generations ∧
    ((execute_algorithm cfgW rngW).1.length = cfgW.num_generations
      ∧ execute_algorithm cfgW rngW
          = ((runState cfgW rngW cfgW.num_generations).statistics,
             (runState cfgW rngW cfgW.num_generations).population,
             (runState cfgW rngW cfgW.num_generations).halloffame)) :=
  ⟨by decide, generational_loop_spec cfgW rngW (by decide)⟩

/-- C9: two runs from the same random oracle state (same seed) produce
identical states at every generation — the same generated trees,
tournament selections, crossover and mutation decisions, and fitness
trajectories — and identical final results, since all randomness is
drawn from the single oracle threaded through the loop. -/
theorem determinism_two_runs (cfg : Config) (r1 r2 : Rng)
    (hreals : r1.reals = r2.reals) (hnats : r1.nats = r2.nats)
    (hpos : r1.pos = r2.pos) :
    (∀ g, runState cfg r1 g = runState cfg r2 g)
    ∧ execute_algorithm cfg r1 = execute_algorithm cfg r2 := by
  have hr : r1 = r2 := by
    cases r1
    cases r2
    simp_all
  subst hr
  exact ⟨fun _ => rfl, rfl⟩

/-- Witness for C9 with the concrete oracle on both sides. -/
theorem determinism_two_runs_witness :
    (rngW.reals = rngW.reals ∧ rngW.nats = rngW.nats ∧ rngW.pos = rngW.pos)
    ∧ ((∀ g, runState cfgW rngW g = runState cfgW rngW g)
      ∧ execute_algorithm cfgW rngW = execute_algorithm cfgW rngW) :=
  ⟨⟨rfl, rfl, rfl⟩, determinism_two_runs cfgW rngW rngW rfl rfl rfl⟩

/-- One crossover-loop iteration leaves every position other than
`i - 1` and `i` unchanged. -/
theorem crossPair_getElem (cfg : Config) (g : List Individual) (i : ℕ)
    (r : Rng) (j : ℕ) (h1 : i ≠ j) (h2 : i - 1 ≠ j) :
    ((crossPair cfg g i r).1)[j]? = g[j]? := by
  simp only [crossPair]
  split
  · rw [List.getElem?_set_ne h1, List.getElem?_set_ne h2]
  · rfl

/-- C10: when `size_population` is odd, the crossover loop processes
only the disjoint adjacent pairs `(0,1), (2,3), ...`, so the final
offspring (position `size_population - 1`) never participates in
crossover: the mating stage leaves that position of the offspring list
unchanged in every generation. -/
theorem odd_population_last_untouched (cfg : Config) (g : List Individual)
    (r : Rng) (hodd : cfg.size_population % 2 = 1) :
    ((crossoverStage cfg g r).1)[cfg.size_population - 1]?
      = g[cfg.size_population - 1]? := by
  have key : ∀ i ∈ oddIndices cfg.size_population,
      i ≠ cfg.size_population - 1 ∧ i - 1 ≠ cfg.size_population - 1 := by
    intro i hi
    simp only [oddIndices, List.mem_map, List.mem_range] at hi
    obtain ⟨k, hk, rfl⟩ := hi
    omega
  suffices h : ∀ (is : List ℕ) (g : List Individual) (r : Rng),
      (∀ i ∈ is, i ≠ cfg.size_population - 1
        ∧ i - 1 ≠ cfg.size_population - 1) →
      ((is.foldl (fun p i => crossPair cfg p.1 i p.2) (g, r)).1)[cfg.size_population - 1]?
        = g[cfg.size_population - 1]? by
    exact h _ g r key
  intro is
  induction is with
  | nil => intro g r _; rfl
  | cons i is ih =>
    intro g r his
    simp only [List.foldl_cons]
    rw [ih _ _ (fun j hj => his j (List.mem_cons_of_mem i hj))]
    exact crossPair_getElem cfg g i r _ (his i (List.mem_cons_self i is)).1
      (his i (List.mem_cons_self i is)).2

/-- Concrete configuration with an odd population of three and certain
crossover, used by the C10 witness. -/
def cfgW3 : Config := ⟨3, 1, 1, 0, 2, 3, 1, 0, fun _ => [0]⟩

/-- Witness for C10: with an odd population of three, the crossover
stage leaves the last offspring unchanged. -/
theorem odd_population_last_untouched_witness :
    cfgW3.size_population % 2 = 1 ∧
    ((crossoverStage cfgW3 [dfltInd, dfltInd, hofW] rngW).1)[cfgW3.size_population - 1]?
      = ([dfltInd, dfltInd, hofW])[cfgW3.size_population - 1]? :=
  ⟨by decide, odd_population_last_untouched cfgW3 [dfltInd, dfltInd, hofW] rngW (by decide)⟩

/-! ## The mutation operator and crossover fitness invalidation -/

/-- Every expression tree has at least one node. -/
theorem Expr.size_pos (t : Expr) : 0 < t.size := by
  cases t <;> simp [Expr.size]

/-- Oracle used by the C6 counterexample: every natural draw is `2`. -/
def rngM : Rng := ⟨fun _ => 0, fun _ => 2, 0⟩

/-- Single-node individual with a set fitness, used by the C6
counterexample. -/
def indM : Individual := ⟨Expr.var 0, some [5]⟩

/-- C6 counterexample: the registered mutation subtree generator is
`gp.genFull` (line 216), not the "grow" method the claim states — under
the same random oracle, mutating with the registered full-method
generator and with the grow-method generator produce different
individuals. -/
theorem mutation_grow_counterexample :
    (mutUniform (expr_mut 1) indM rngM).1
      ≠ (mutUniform (expr_mut_grow 1 1) indM rngM).1 := by
  decide

/-- C6 (amended): the mutation operator picks one node index uniformly
at random below the tree's node count and substitutes a fresh subtree
generated by the "full" method (`gp.genFull`) with target depth drawn
uniformly in `[0, 2]`; in the mutation loop, whenever the probability
draw fires, the resulting individual's fitness is unset. -/
theorem mutation_operator_full (cfg : Config) (ind : Individual)
    (rest : List Individual) (r : Rng)
    (hfire : r.drawReal.1 < cfg.prob_mutation) :
    (mutationStage cfg (ind :: rest) r).1.head?
      = some { (staticLimitOne cfg.max_height
                  (mutUniform (expr_mut cfg.numVars)) ind r.drawReal.2).1
                with fitness := none }
    ∧ (mutUniform (expr_mut cfg.numVars) ind r.drawReal.2).1.tree
        = ind.tree.replaceAt (r.drawReal.2.drawNat ind.tree.size).1
            (expr_mut cfg.numVars (r.drawReal.2.drawNat ind.tree.size).2).1
    ∧ (r.drawReal.2.drawNat ind.tree.size).1 < ind.tree.size
    ∧ expr_mut cfg.numVars (r.drawReal.2.drawNat ind.tree.size).2
        = genFullRec cfg.numVars
            (((r.drawReal.2.drawNat ind.tree.size).2.drawNat 3).1)
            (((r.drawReal.2.drawNat ind.tree.size).2.drawNat 3).2)
    ∧ (((r.drawReal.2.drawNat ind.tree.size).2.drawNat 3).1) ≤ 2 := by
  refine ⟨?_, rfl, ?_, rfl, ?_⟩
  · simp only [mutationStage]
    rw [if_pos hfire]
    rfl
  · simp only [Rng.drawNat]
    exact Nat.mod_lt _ ind.tree.size_pos
  · simp only [Rng.drawNat]
    omega

/-- Concrete configuration with certain mutation, used by the C6
witness. -/
def cfgM : Config := ⟨1, 1, 0, 1, 2, 3, 1, 0, fun _ => [0]⟩

/-- Witness for C6 (amended) at the concrete single-node individual. -/
theorem mutation_operator_full_witness :
    rngM.drawReal.1 < cfgM.prob_mutation ∧
    ((mutationStage cfgM (indM :: []) rngM).1.head?
      = some { (staticLimitOne cfgM.max_height
                  (mutUniform (expr_mut cfgM.numVars)) indM rngM.drawReal.2).1
                with fitness := none }
    ∧ (mutUniform (expr_mut cfgM.numVars) indM rngM.drawReal.2).1.tree
        = indM.tree.replaceAt (rngM.drawReal.2.drawNat indM.tree.size).1
            (expr_mut cfgM.numVars (rngM.drawReal.2.drawNat indM.tree.size).2).1
    ∧ (rngM.drawReal.2.drawNat indM.tree.size).1 < indM.tree.size
    ∧ expr_mut cfgM.numVars (rngM.drawReal.2.drawNat indM.tree.size).2
        = genFullRec cfgM.numVars
            (((rngM.drawReal.2.drawNat indM.tree.size).2.drawNat 3).1)
            (((rngM.drawReal.2.drawNat indM.tree.size).2.drawNat 3).2)
    ∧ (((rngM.drawReal.2.drawNat indM.tree.size).2.drawNat 3).1) ≤ 2) :=
  ⟨by norm_num [Rng.drawReal, rngM, cfgM],
   mutation_operator_full cfgM indM [] rngM
     (by norm_num [Rng.drawReal, rngM, cfgM])⟩

/-- Height-2 tree used by the crossover revert scenario. -/
def treeC : Expr := Expr.add (Expr.add (Expr.var 0) (Expr.var 0)) (Expr.var 0)

/-- First parent of the revert scenario, fitness set. -/
def indC1 : Individual := ⟨treeC, some [7]⟩

/-- Second parent of the revert scenario, fitness set. -/
def indC2 : Individual := ⟨treeC, some [9]⟩

/-- Oracle of the revert scenario: the crossover probability draw is
`0`, the crossover points are node `2` of the first parent (a leaf) and
node `1` of the second (its height-1 subtree), so the first child grows
to height 3. -/
def rngC : Rng :=
  ⟨fun _ => 0, fun p => if p = 1 then 2 else if p = 2 then 1 else 0, 0⟩

/-- Configuration of the revert scenario: certain crossover, height
bound 2. -/
def cfgC : Config := ⟨2, 1, 1, 0, 2, 3, 1, 0, fun _ => [0]⟩

/-- C7 counterexample: in the revert scenario, the height-limit wrapper
reverts the crossover — the pre-operation individuals come back
unchanged, fitness still set — yet after the crossover loop both
members' fitness values are unset.  Fitness invalidation is therefore
not equivalent to the crossover being actually applied. -/
theorem crossover_fitness_counterexample :
    (staticLimitPair cfgC.max_height cxOnePoint indC1 indC2
        ⟨rngC.reals, rngC.nats, 1⟩).1 = (indC1, indC2)
    ∧ (crossoverStage cfgC [indC1, indC2] rngC).1
        = [{ indC1 with fitness := none }, { indC2 with fitness := none }] :=
  ⟨by decide, by decide⟩

/-- C7 (amended): whenever the crossover branch fires (probability draw
below `prob_crossover`), both pair members' fitness values become unset
— even when the height-limit wrapper reverted the operation; the wrapper
itself, on revert, returns the pre-operation individuals unchanged,
their fitness values still set. -/
theorem crossover_fitness_amended (cfg : Config) (g : List Individual)
    (i : ℕ) (r : Rng) (hfire : r.drawReal.1 < cfg.prob_crossover) :
    crossPair cfg g i r
      = ((g.set (i - 1)
            { (staticLimitPair cfg.max_height cxOnePoint (g.getD (i - 1) dfltInd)
                (g.getD i dfltInd) r.drawReal.2).1.1 with fitness := none }).set i
          { (staticLimitPair cfg.max_height cxOnePoint (g.getD (i - 1) dfltInd)
              (g.getD i dfltInd) r.drawReal.2).1.2 with fitness := none },
         (staticLimitPair cfg.max_height cxOnePoint (g.getD (i - 1) dfltInd)
            (g.getD i dfltInd) r.drawReal.2).2)
    ∧ (¬ ((cxOnePoint (g.getD (i - 1) dfltInd) (g.getD i dfltInd)
            r.drawReal.2).1.1.tree.height ≤ cfg.max_height
          ∧ (cxOnePoint (g.getD (i - 1) dfltInd) (g.getD i dfltInd)
              r.drawReal.2).1.2.tree.height ≤ cfg.max_height) →
        (staticLimitPair cfg.max_height cxOnePoint (g.getD (i - 1) dfltInd)
            (g.getD i dfltInd) r.drawReal.2).1
          = (g.getD (i - 1) dfltInd, g.getD i dfltInd)) := by
  constructor
  · simp only [crossPair]
    rw [if_pos hfire]
  · intro h
    simp only [staticLimitPair]
    rw [if_neg h]

/-- Witness for C7 (amended) in the concrete revert scenario. -/
theorem crossover_fitness_amended_witness :
    rngC.drawReal.1 < cfgC.prob_crossover ∧
    (crossPair cfgC [indC1, indC2] 1 rngC
      = (([indC1, indC2].set 0
            { (staticLimitPair cfgC.max_height cxOnePoint
                ([indC1, indC2].getD 0 dfltInd)
                ([indC1, indC2].getD 1 dfltInd) rngC.drawReal.2).1.1
              with fitness := none }).set 1
          { (staticLimitPair cfgC.max_height cxOnePoint
              ([indC1, indC2].getD 0 dfltInd)
              ([indC1, indC2].getD 1 dfltInd) rngC.drawReal.2).1.2
            with fitness := none },
         (staticLimitPair cfgC.max_height cxOnePoint
            ([indC1, indC2].getD 0 dfltInd)
            ([indC1, indC2].getD 1 dfltInd) rngC.drawReal.2).2)
    ∧ (¬ ((cxOnePoint ([indC1, indC2].getD 0 dfltInd)
            ([indC1, indC2].getD 1 dfltInd)
            rngC.drawReal.2).1.1.tree.height ≤ cfgC.max_height
          ∧ (cxOnePoint ([indC1, indC2].getD 0 dfltInd)
              ([indC1, indC2].getD 1 dfltInd)
              rngC.drawReal.2).1.2.tree.height ≤ cfgC.max_height) →
        (staticLimitPair cfgC.max_height cxOnePoint
            ([indC1, indC2].getD 0 dfltInd)
            ([indC1, indC2].getD 1 dfltInd) rngC.drawReal.2).1
          = ([indC1, indC2].getD 0 dfltInd, [indC1, indC2].getD 1 dfltInd))) :=
  ⟨by norm_num [Rng.drawReal, rngC, cfgC],
   crossover_fitness_amended cfgC [indC1, indC2] 1 rngC
     (by norm_num [Rng.drawReal, rngC, cfgC])⟩

end GPBench
